import Mathlib

set_option maxHeartbeats 1000000

/- Verification of NDPeekr's windowed aggregation store (the NDPStats variant
   with multicast-group and MAC tracking) and of its ICMPv6/NDP/MLD parsers
   from lib/ndp_listener.go.

   Embedding conventions:
   * Go `time.Time` values are integers (the zero `time.Time` is `0`);
     `time.Duration` windows are integers in the same unit, so
     `cutoff := now - window` and `ts.After(cutoff)` is `cutoff < ts`.
   * Go byte buffers are `List Nat` (each element one byte).
   * Go maps are association lists in insertion order: writing an existing key
     replaces its entry in place, a fresh key is appended at the end. -/

/-- Association-list lookup, mirroring a Go map read `m[k]`. -/
def alookup {α : Type} (l : List (String × α)) (k : String) : Option α :=
  match l with
  | [] => none
  | (k', v) :: rest => if k' = k then some v else alookup rest k

/-- Association-list upsert mirroring a Go map write `m[k] = f(m[k])`:
    the first entry for `k` is replaced, a missing key is appended. -/
def aupsert {α : Type} (l : List (String × α)) (k : String) (f : Option α → α) :
    List (String × α) :=
  match l with
  | [] => [(k, f none)]
  | (k', v) :: rest =>
      if k' = k then (k', f (some v)) :: rest else (k', v) :: aupsert rest k f

theorem alookup_aupsert_self {α : Type} (l : List (String × α)) (k : String)
    (f : Option α → α) : alookup (aupsert l k f) k = some (f (alookup l k)) := by
  induction l with
  | nil => simp [alookup, aupsert]
  | cons hd tl ih =>
      obtain ⟨k', v⟩ := hd
      by_cases h : k' = k
      · simp [alookup, aupsert, h]
      · simp [alookup, aupsert, h, ih]

theorem alookup_aupsert_ne {α : Type} (l : List (String × α)) (k a : String)
    (f : Option α → α) (h : a ≠ k) :
    alookup (aupsert l k f) a = alookup l a := by
  have hka : ¬ k = a := fun hk => h hk.symm
  induction l with
  | nil => simp [alookup, aupsert, hka]
  | cons hd tl ih =>
      obtain ⟨k', v⟩ := hd
      by_cases hk : k' = k
      · subst hk
        simp [alookup, aupsert, hka]
      · by_cases ha : k' = a <;> simp [alookup, aupsert, hk, ha, ih, h, hka]

/-- Every entry of an upserted list is either an untouched original entry or
    the freshly written entry for `k`. -/
theorem mem_aupsert {α : Type} {l : List (String × α)} {k : String}
    {f : Option α → α} {x : String × α} (hx : x ∈ aupsert l k f) :
    x ∈ l ∨ x = (k, f (alookup l k)) := by
  induction l with
  | nil =>
      simp [aupsert, alookup] at hx
      simp [alookup, hx]
  | cons hd tl ih =>
      obtain ⟨k', v⟩ := hd
      by_cases h : k' = k
      · subst h
        simp [aupsert, alookup] at hx ⊢
        rcases hx with hx | hx
        · right; simp [hx]
        · left; right; exact hx
      · simp [aupsert, alookup, h] at hx ⊢
        rcases hx with hx | hx
        · simp [hx]
        · rcases ih hx with h1 | h1
          · simp [h1]
          · right; exact h1

/-- Go `ts.After(cutoff)`, i.e. strictly later than the cutoff. -/
def isAfter (cutoff t : Int) : Bool := decide (cutoff < t)

/-- PeerStats (ndp_stats.go): per-peer record of the aggregation store.
    `lastSeen = 0` models Go's zero `time.Time`; `mac = ""` the string default. -/
structure PeerStats where
  firstSeen : Int
  lastSeen : Int
  messages : List (String × List Int)
  groups : List (String × Int)
  mac : String
deriving Repr, DecidableEq

/-- PeerSummary (ndp_stats.go): snapshot row produced by GetStats. -/
structure PeerSummary where
  address : String
  firstSeen : Int
  lastSeen : Int
  counts : List (String × Nat)
  total : Nat
  groups : List String
  mac : String
deriving Repr, DecidableEq

/-- NDPStats (ndp_stats.go): the aggregation store (the mutex is a run-time
    concern with no counterpart in the functional model). -/
structure NDPStats where
  peers : List (String × PeerStats)
  window : Int
deriving Repr, DecidableEq

namespace NDPStats

/-- NewNDPStats: empty store with the given sliding window. -/
def init (window : Int) : NDPStats := { peers := [], window := window }

/-- getOrCreatePeer: the existing record, or a fresh one whose FirstSeen is
    `now` while LastSeen stays at the zero time and MAC stays empty. -/
def getOrCreate (p : Option PeerStats) (now : Int) : PeerStats :=
  match p with
  | some peer => peer
  | none => { firstSeen := now, lastSeen := 0, messages := [], groups := [], mac := "" }

/-- RecordMessage: get-or-create the peer, set LastSeen to now and append the
    timestamp to the kind's list. -/
def recordMessage (s : NDPStats) (ip kind : String) (now : Int) : NDPStats :=
  { s with peers := aupsert s.peers ip (fun op =>
      let peer := getOrCreate op now
      { peer with
          lastSeen := now
          messages := aupsert peer.messages kind (fun ts => ts.getD [] ++ [now]) }) }

/-- RecordMLDMembership: get-or-create the peer and overwrite the group's
    last-report time with now. -/
def recordMLDMembership (s : NDPStats) (ip group : String) (now : Int) : NDPStats :=
  { s with peers := aupsert s.peers ip (fun op =>
      let peer := getOrCreate op now
      { peer with groups := aupsert peer.groups group (fun _ => now) }) }

/-- RecordMAC: get-or-create the peer and overwrite its MAC. -/
def recordMAC (s : NDPStats) (ip mac : String) (now : Int) : NDPStats :=
  { s with peers := aupsert s.peers ip (fun op =>
      { getOrCreate op now with mac := mac }) }

/-- Relation used to order snapshot rows: total message count descending. -/
def byTotal (a b : PeerSummary) : Prop := b.total ≤ a.total

instance : DecidableRel byTotal := fun a b =>
  inferInstanceAs (Decidable (b.total ≤ a.total))

instance : IsTotal PeerSummary byTotal :=
  ⟨fun a b => le_total b.total a.total⟩

instance : IsTrans PeerSummary byTotal :=
  ⟨fun _ _ _ h1 h2 => le_trans h2 h1⟩

/-- The summary GetStats builds for one peer: per-kind in-window counts, their
    sum as the total, and the in-window groups sorted ascending. -/
def summarize (cutoff : Int) (addr : String) (p : PeerStats) : PeerSummary :=
  let counts := p.messages.map (fun kt => (kt.1, kt.2.countP (isAfter cutoff)))
  { address := addr
    firstSeen := p.firstSeen
    lastSeen := p.lastSeen
    mac := p.mac
    counts := counts
    total := (counts.map (·.2)).sum
    groups := List.insertionSort (· ≤ ·)
      ((p.groups.filter (fun g => isAfter cutoff g.2)).map (·.1)) }

/-- GetStats: summarize every stored peer against `cutoff = now - window` and
    sort the rows by total descending. -/
def getStats (s : NDPStats) (now : Int) : List PeerSummary :=
  let cutoff := now - s.window
  List.insertionSort byTotal (s.peers.map (fun ap => summarize cutoff ap.1 ap.2))

/-- GetStats as a function of the order in which the Go `range` iteration
    visits the peers map: Go leaves that order unspecified (and randomizes
    it), so a single GetStats call is only determined by the store contents
    up to a permutation of the visited entry list. -/
def getStatsIter (peersIter : List (String × PeerStats)) (window now : Int) :
    List PeerSummary :=
  List.insertionSort byTotal
    (peersIter.map (fun ap => summarize (now - window) ap.1 ap.2))

/-- The message-map part of Prune: keep only in-window timestamps per kind and
    delete a kind's entry entirely when none remain. -/
def pruneMsgs (cutoff : Int) (msgs : List (String × List Int)) :
    List (String × List Int) :=
  msgs.filterMap (fun kt =>
      let kept := kt.2.filter (isAfter cutoff)
      if kept.isEmpty then none else some (kt.1, kept))

/-- The per-peer part of Prune: drop out-of-window timestamps, delete kinds
    that become empty, drop out-of-window groups; also report how many
    timestamps were kept. -/
def prunePeer (cutoff : Int) (p : PeerStats) : PeerStats × Nat :=
  let msgs := pruneMsgs cutoff p.messages
  ({ p with
      messages := msgs
      groups := p.groups.filter (fun g => isAfter cutoff g.2) },
   (msgs.map (·.2.length)).sum)

/-- Prune: apply `prunePeer` to every peer and remove peers that kept no
    in-window message timestamps at all. -/
def prune (s : NDPStats) (now : Int) : NDPStats :=
  let cutoff := now - s.window
  { s with peers := s.peers.filterMap (fun ap =>
      let pk := prunePeer cutoff ap.2
      if pk.2 = 0 then none else some (ap.1, pk.1)) }

/-- A snapshot call as an operation on the store: it produces the summaries
    and leaves the store untouched (GetStats only reads under RLock). -/
def snapshotCall (s : NDPStats) (now : Int) : List PeerSummary × NDPStats :=
  (getStats s now, s)

/-- Total number of in-window message timestamps of a peer. -/
def inWinTotal (cutoff : Int) (p : PeerStats) : Nat :=
  (p.messages.map (fun kt => kt.2.countP (isAfter cutoff))).sum

/-- Well-formedness of a store: map keys are unique, as they are in Go. -/
def WF (s : NDPStats) : Prop :=
  (s.peers.map Prod.fst).Nodup ∧
  ∀ ap ∈ s.peers,
    (ap.2.messages.map Prod.fst).Nodup ∧ (ap.2.groups.map Prod.fst).Nodup

instance (s : NDPStats) : Decidable (WF s) := by
  unfold WF; infer_instance

end NDPStats

theorem alookup_mem {α : Type} {l : List (String × α)} {k : String} {v : α}
    (h : alookup l k = some v) : (k, v) ∈ l := by
  induction l with
  | nil => simp [alookup] at h
  | cons hd tl ih =>
      obtain ⟨k', w⟩ := hd
      by_cases hk : k' = k
      · subst hk
        simp [alookup] at h
        simp [h]
      · simp [alookup, hk] at h
        simp [ih h]

namespace NDPStats

/-- States reachable from a fresh store through any sequence of
    recordMessage / recordMLDMembership / recordMAC / prune / snapshot calls,
    with a wall clock that starts at or after the zero time and never runs
    backwards.  `Reach s t` means the store is in state `s` with current clock
    reading `t`. -/
inductive Reach : NDPStats → Int → Prop
  | initial (w t : Int) (h : 0 ≤ t) : Reach (init w) t
  | msgStep {s : NDPStats} {t : Int} (h : Reach s t) (ip kind : String) (t2 : Int)
      (ht : t ≤ t2) : Reach (recordMessage s ip kind t2) t2
  | mldStep {s : NDPStats} {t : Int} (h : Reach s t) (ip group : String) (t2 : Int)
      (ht : t ≤ t2) : Reach (recordMLDMembership s ip group t2) t2
  | macStep {s : NDPStats} {t : Int} (h : Reach s t) (ip m : String) (t2 : Int)
      (ht : t ≤ t2) : Reach (recordMAC s ip m t2) t2
  | pruneStep {s : NDPStats} {t : Int} (h : Reach s t) (t2 : Int) (ht : t ≤ t2) :
      Reach (prune s t2) t2
  | snapStep {s : NDPStats} {t : Int} (h : Reach s t) (t2 : Int) (ht : t ≤ t2) :
      Reach s t2

theorem reach_time_nonneg {s : NDPStats} {t : Int} (h : Reach s t) : 0 ≤ t := by
  induction h with
  | initial w t h => exact h
  | msgStep h ip kind t2 ht ih => omega
  | mldStep h ip g t2 ht ih => omega
  | macStep h ip m t2 ht ih => omega
  | pruneStep h t2 ht ih => omega
  | snapStep h t2 ht ih => omega

/-- Timestamps invariant of every reachable state: both seen-times are at most
    the clock, and LastSeen is either still the zero time (a peer created by
    RecordMAC or RecordMLDMembership that has no message yet) or at least
    FirstSeen. -/
theorem reach_inv {s : NDPStats} {t : Int} (h : Reach s t) :
    ∀ ap ∈ s.peers, ap.2.firstSeen ≤ t ∧ ap.2.lastSeen ≤ t ∧
      (ap.2.lastSeen = 0 ∨ ap.2.firstSeen ≤ ap.2.lastSeen) := by
  induction h with
  | initial w t h => intro ap hap; simp [init] at hap
  | msgStep h ip kind t2 ht ih =>
      intro ap hap
      rcases mem_aupsert hap with hmem | hnew
      · have := ih ap hmem; exact ⟨by omega, by omega, this.2.2⟩
      · subst hnew
        cases hl : alookup _ ip with
        | none => simp [hl, getOrCreate]
        | some p =>
            have := ih (ip, p) (alookup_mem hl)
            simp [hl, getOrCreate] at this ⊢
            omega
  | mldStep h ip g t2 ht ih =>
      intro ap hap
      rcases mem_aupsert hap with hmem | hnew
      · have := ih ap hmem; exact ⟨by omega, by omega, this.2.2⟩
      · subst hnew
        cases hl : alookup _ ip with
        | none =>
            simp [hl, getOrCreate]
            have := reach_time_nonneg h
            omega
        | some p =>
            have := ih (ip, p) (alookup_mem hl)
            simp [hl, getOrCreate] at this ⊢
            omega
  | macStep h ip m t2 ht ih =>
      intro ap hap
      rcases mem_aupsert hap with hmem | hnew
      · have := ih ap hmem; exact ⟨by omega, by omega, this.2.2⟩
      · subst hnew
        cases hl : alookup _ ip with
        | none =>
            simp [hl, getOrCreate]
            have := reach_time_nonneg h
            omega
        | some p =>
            have := ih (ip, p) (alookup_mem hl)
            simp [hl, getOrCreate] at this ⊢
            omega
  | pruneStep h t2 ht ih =>
      intro ap hap
      simp only [prune, List.mem_filterMap] at hap
      obtain ⟨⟨a, q⟩, hq, heq⟩ := hap
      split at heq
      · simp at heq
      · simp only [Option.some.injEq] at heq
        have := ih (a, q) hq
        subst heq
        simp [prunePeer] at this ⊢
        omega
  | snapStep h t2 ht ih =>
      intro ap hap
      have := ih ap hap
      exact ⟨by omega, by omega, this.2.2⟩

end NDPStats

/-- C3 counterexample: the store state produced by a single RecordMAC call on a
    fresh store is reachable, yet its only peer has FirstSeen = 5 and
    LastSeen = 0 (Go's zero time), violating first_seen <= last_seen.  So it is
    not the case that every peer of every reachable state satisfies the
    claimed invariant. -/
theorem firstSeen_le_lastSeen_cex :
    ¬ (∀ (s : NDPStats) (t : Int), NDPStats.Reach s t →
        ∀ ap ∈ s.peers, ap.2.firstSeen ≤ ap.2.lastSeen) := by
  intro hall
  have hreach : NDPStats.Reach
      (NDPStats.recordMAC (NDPStats.init 60) "fe80::99" "11:22:33:44:55:66" 5) 5 :=
    NDPStats.Reach.macStep (NDPStats.Reach.initial 60 0 le_rfl) _ _ 5 (by norm_num)
  have hmem : (("fe80::99", (⟨5, 0, [], [], "11:22:33:44:55:66"⟩ : PeerStats)) ∈
      (NDPStats.recordMAC (NDPStats.init 60) "fe80::99" "11:22:33:44:55:66" 5).peers) := by
    decide
  have h5 := hall _ 5 hreach _ hmem
  have : (5 : Int) ≤ 0 := h5
  omega

/-- C3 (amended): in every reachable store state, every peer whose LastSeen is
    not the zero time satisfies first_seen <= last_seen; peers created solely
    by RecordMAC or RecordMLDMembership keep LastSeen at the zero time until a
    RecordMessage call for them occurs. -/
theorem firstSeen_le_lastSeen_amended {s : NDPStats} {t : Int}
    (h : NDPStats.Reach s t) :
    ∀ ap ∈ s.peers, ap.2.lastSeen = 0 ∨ ap.2.firstSeen ≤ ap.2.lastSeen :=
  fun ap hap => (NDPStats.reach_inv h ap hap).2.2

theorem firstSeen_le_lastSeen_amended_witness :
    (⟨5, 5, [("router_solicitation", [5])], [], ""⟩ : PeerStats).lastSeen = 0 ∨
    (⟨5, 5, [("router_solicitation", [5])], [], ""⟩ : PeerStats).firstSeen ≤
      (⟨5, 5, [("router_solicitation", [5])], [], ""⟩ : PeerStats).lastSeen :=
  firstSeen_le_lastSeen_amended
    (NDPStats.Reach.msgStep (NDPStats.Reach.initial 60 0 le_rfl)
      "a" "router_solicitation" 5 (by norm_num))
    ("a", ⟨5, 5, [("router_solicitation", [5])], [], ""⟩) (by decide)

/-- C10: RecordMLDMembership touches only the addressed peer and, within it,
    only the groups entry for the reported group; RecordMAC touches only the
    MAC field; neither updates LastSeen, so a peer created solely by either
    call has FirstSeen = now and LastSeen still at the zero time. -/
theorem record_frame (s : NDPStats) (ip other g m : String) (t : Int) :
    ((NDPStats.recordMLDMembership s ip g t).window = s.window) ∧
    (other ≠ ip →
      alookup (NDPStats.recordMLDMembership s ip g t).peers other =
        alookup s.peers other) ∧
    (∀ p, alookup s.peers ip = some p →
      ∃ p2, alookup (NDPStats.recordMLDMembership s ip g t).peers ip = some p2 ∧
        p2.firstSeen = p.firstSeen ∧ p2.lastSeen = p.lastSeen ∧ p2.mac = p.mac ∧
        p2.messages = p.messages ∧
        alookup p2.groups g = some t ∧
        (∀ g2, g2 ≠ g → alookup p2.groups g2 = alookup p.groups g2)) ∧
    (alookup s.peers ip = none →
      ∃ p2, alookup (NDPStats.recordMLDMembership s ip g t).peers ip = some p2 ∧
        p2.firstSeen = t ∧ p2.lastSeen = 0 ∧ p2.mac = "" ∧ p2.messages = [] ∧
        p2.groups = [(g, t)]) ∧
    ((NDPStats.recordMAC s ip m t).window = s.window) ∧
    (other ≠ ip →
      alookup (NDPStats.recordMAC s ip m t).peers other = alookup s.peers other) ∧
    (∀ p, alookup s.peers ip = some p →
      alookup (NDPStats.recordMAC s ip m t).peers ip =
        some { p with mac := m }) ∧
    (alookup s.peers ip = none →
      alookup (NDPStats.recordMAC s ip m t).peers ip =
        some ⟨t, 0, [], [], m⟩) := by
  refine ⟨rfl, ?_, ?_, ?_, rfl, ?_, ?_, ?_⟩
  · intro hne
    exact alookup_aupsert_ne _ _ _ _ hne
  · intro p hp
    refine ⟨{ p with groups := aupsert p.groups g (fun _ => t) }, ?_, ?_⟩
    · have := alookup_aupsert_self s.peers ip (fun op =>
        let peer := NDPStats.getOrCreate op t
        { peer with groups := aupsert peer.groups g (fun _ => t) })
      simpa [hp, NDPStats.getOrCreate] using this
    · refine ⟨rfl, rfl, rfl, rfl, alookup_aupsert_self _ _ _,
        fun g2 hg2 => alookup_aupsert_ne _ _ _ _ hg2⟩
  · intro hp
    refine ⟨⟨t, 0, [], [(g, t)], ""⟩, ?_, rfl, rfl, rfl, rfl, rfl⟩
    have := alookup_aupsert_self s.peers ip (fun op =>
      let peer := NDPStats.getOrCreate op t
      { peer with groups := aupsert peer.groups g (fun _ => t) })
    simpa [hp, NDPStats.getOrCreate, aupsert] using this
  · intro hne
    exact alookup_aupsert_ne _ _ _ _ hne
  · intro p hp
    have := alookup_aupsert_self s.peers ip
      (fun op => { NDPStats.getOrCreate op t with mac := m })
    simpa [hp, NDPStats.getOrCreate] using this
  · intro hp
    have := alookup_aupsert_self s.peers ip
      (fun op => { NDPStats.getOrCreate op t with mac := m })
    simpa [hp, NDPStats.getOrCreate] using this

theorem record_frame_witness :
    ∃ p2, alookup
        (NDPStats.recordMLDMembership
          { peers := [("fe80::1", ⟨1, 1, [("mld_report", [1])], [("ff02::c", 1)], "aa"⟩)],
            window := 60 } "fe80::1" "ff02::fb" 7).peers "fe80::1" = some p2 ∧
      p2.firstSeen = (1 : Int) ∧ p2.lastSeen = (1 : Int) ∧ p2.mac = "aa" ∧
      p2.messages = [("mld_report", [1])] ∧
      alookup p2.groups "ff02::fb" = some 7 ∧
      (∀ g2, g2 ≠ "ff02::fb" →
        alookup p2.groups g2 =
          alookup ([("ff02::c", (1 : Int))] : List (String × Int)) g2) := by
  have h := (record_frame
      { peers := [("fe80::1", ⟨1, 1, [("mld_report", [1])], [("ff02::c", 1)], "aa"⟩)],
        window := 60 } "fe80::1" "x" "ff02::fb" "m" 7).2.2.1
      ⟨1, 1, [("mld_report", [1])], [("ff02::c", 1)], "aa"⟩ (by decide)
  exact h

/-- C9 counterexample: two snapshot calls with no intervening writes need not
    return identical data.  First, the wall clock advances between the calls:
    on a store holding one message at time 2 with window 5, a snapshot at
    time 6 counts it but a snapshot at time 8 does not, the timestamp having
    aged past the cutoff.  Second, GetStats feeds Go's unspecified
    (randomized) map iteration order into an unstable sort, and two iteration
    orders of the same store — here two equal-total peers visited in either
    order — are both legitimate executions of one call yet produce
    differently ordered results. -/
theorem snapshot_idempotent_cex :
    (NDPStats.getStats
        { peers := [("a", ⟨2, 2, [("neighbor_solicitation", [2])], [], ""⟩)],
          window := 5 } 6 ≠
      NDPStats.getStats
        { peers := [("a", ⟨2, 2, [("neighbor_solicitation", [2])], [], ""⟩)],
          window := 5 } 8) ∧
    List.Perm
      [("a", (⟨1, 1, [("mld_report", [9])], [], ""⟩ : PeerStats)),
       ("b", (⟨1, 1, [("mld_report", [9])], [], ""⟩ : PeerStats))]
      [("b", (⟨1, 1, [("mld_report", [9])], [], ""⟩ : PeerStats)),
       ("a", (⟨1, 1, [("mld_report", [9])], [], ""⟩ : PeerStats))] ∧
    NDPStats.getStatsIter
        [("a", ⟨1, 1, [("mld_report", [9])], [], ""⟩),
         ("b", ⟨1, 1, [("mld_report", [9])], [], ""⟩)] 5 10 ≠
      NDPStats.getStatsIter
        [("b", ⟨1, 1, [("mld_report", [9])], [], ""⟩),
         ("a", ⟨1, 1, [("mld_report", [9])], [], ""⟩)] 5 10 :=
  ⟨by decide, by decide, by decide⟩

/-- C9 (amended): a snapshot call leaves the store unchanged, and at a fixed
    clock reading its result is determined by the store contents up to Go's
    unspecified map iteration order: any iteration order of the peers yields
    the same collection of summaries (a permutation — same per-kind counts,
    same totals), always sorted by total descending.  Bitwise-identical
    output across two calls, including the relative order of equal-total
    rows, is not a guarantee the program gives. -/
theorem snapshot_stable (s : NDPStats) (now : Int)
    (iter : List (String × PeerStats)) (hperm : iter.Perm s.peers) :
    (NDPStats.snapshotCall s now).2 = s ∧
    (NDPStats.getStatsIter iter s.window now).Perm (NDPStats.getStats s now) ∧
    (NDPStats.getStatsIter iter s.window now).Sorted NDPStats.byTotal := by
  refine ⟨rfl, ?_, List.sorted_insertionSort _ _⟩
  have h1 : (NDPStats.getStatsIter iter s.window now).Perm
      (iter.map (fun ap => NDPStats.summarize (now - s.window) ap.1 ap.2)) :=
    List.perm_insertionSort _ _
  have h2 := hperm.map (fun ap => NDPStats.summarize (now - s.window) ap.1 ap.2)
  have h3 : (NDPStats.getStats s now).Perm
      (s.peers.map (fun ap => NDPStats.summarize (now - s.window) ap.1 ap.2)) :=
    List.perm_insertionSort _ _
  exact (h1.trans h2).trans h3.symm

theorem snapshot_stable_witness :
    (NDPStats.snapshotCall
        { peers := [("a", ⟨1, 1, [("mld_report", [9])], [], ""⟩),
                    ("b", ⟨1, 1, [("mld_report", [9])], [], ""⟩)],
          window := 5 } 10).2 =
      { peers := [("a", ⟨1, 1, [("mld_report", [9])], [], ""⟩),
                  ("b", ⟨1, 1, [("mld_report", [9])], [], ""⟩)],
        window := 5 } ∧
    (NDPStats.getStatsIter
        [("b", ⟨1, 1, [("mld_report", [9])], [], ""⟩),
         ("a", ⟨1, 1, [("mld_report", [9])], [], ""⟩)] 5 10).Perm
      (NDPStats.getStats
        { peers := [("a", ⟨1, 1, [("mld_report", [9])], [], ""⟩),
                    ("b", ⟨1, 1, [("mld_report", [9])], [], ""⟩)],
          window := 5 } 10) ∧
    (NDPStats.getStatsIter
        [("b", ⟨1, 1, [("mld_report", [9])], [], ""⟩),
         ("a", ⟨1, 1, [("mld_report", [9])], [], ""⟩)] 5 10).Sorted
      NDPStats.byTotal :=
  snapshot_stable
    { peers := [("a", ⟨1, 1, [("mld_report", [9])], [], ""⟩),
                ("b", ⟨1, 1, [("mld_report", [9])], [], ""⟩)],
      window := 5 } 10
    [("b", ⟨1, 1, [("mld_report", [9])], [], ""⟩),
     ("a", ⟨1, 1, [("mld_report", [9])], [], ""⟩)] (by decide)

/-- C2: GetStats emits one summary per stored peer (even ones with in-window
    total 0, e.g. a peer created only by RecordMAC); each per-kind count is the
    number of that kind's timestamps strictly after `now - window`, the total
    is their sum, the groups are exactly those last reported strictly after
    the cutoff, sorted ascending, and the rows are sorted by total descending
    (`byTotal`). -/
theorem getStats_behavior (s : NDPStats) (now : Int) :
    ((NDPStats.getStats s now).length = s.peers.length) ∧
    (∀ a p, (a, p) ∈ s.peers →
      ∃ sm ∈ NDPStats.getStats s now, sm.address = a ∧
        sm.firstSeen = p.firstSeen ∧ sm.lastSeen = p.lastSeen ∧ sm.mac = p.mac ∧
        (∀ k ts, (k, ts) ∈ p.messages →
          (k, ts.countP (isAfter (now - s.window))) ∈ sm.counts) ∧
        sm.total =
          (p.messages.map (fun kt => kt.2.countP (isAfter (now - s.window)))).sum ∧
        (∀ g, g ∈ sm.groups ↔ ∃ tg, (g, tg) ∈ p.groups ∧ now - s.window < tg) ∧
        sm.groups.Sorted (· ≤ ·)) ∧
    ((NDPStats.getStats s now).Sorted NDPStats.byTotal) ∧
    (∀ sm ∈ NDPStats.getStats s now, ∃ a p, (a, p) ∈ s.peers ∧ sm.address = a) := by
  refine ⟨?_, ?_, ?_, ?_⟩
  · simp [NDPStats.getStats, List.length_insertionSort]
  · intro a p hap
    refine ⟨NDPStats.summarize (now - s.window) a p, ?_, rfl, rfl, rfl, rfl,
      ?_, ?_, ?_, ?_⟩
    · exact (List.mem_insertionSort _).mpr
        (List.mem_map_of_mem (fun ap => NDPStats.summarize (now - s.window) ap.1 ap.2) hap)
    · intro k ts hk
      simpa [NDPStats.summarize] using
        List.mem_map_of_mem (fun kt => (kt.1, kt.2.countP (isAfter (now - s.window)))) hk
    · simp only [NDPStats.summarize, List.map_map]
      rfl
    · intro g
      simp [NDPStats.summarize, List.mem_insertionSort, List.mem_map,
        List.mem_filter, isAfter]
    · simp only [NDPStats.summarize]
      exact List.sorted_insertionSort _ _
  · exact List.sorted_insertionSort _ _
  · intro sm hsm
    obtain ⟨⟨a, p⟩, hmem, heq⟩ :=
      List.mem_map.mp ((List.mem_insertionSort _).mp hsm)
    exact ⟨a, p, hmem, heq ▸ rfl⟩

theorem alookup_none_of_not_mem {α : Type} {l : List (String × α)} {k : String}
    (h : k ∉ l.map Prod.fst) : alookup l k = none := by
  induction l with
  | nil => rfl
  | cons hd tl ih =>
      obtain ⟨k', v⟩ := hd
      have hne : ¬ k' = k := fun he => h (by simp [he])
      have htl : k ∉ tl.map Prod.fst := fun hm => h (by simp [hm])
      simp [alookup, hne, ih htl]

theorem keys_nodup_unique {α : Type} {l : List (String × α)}
    (hnd : (l.map Prod.fst).Nodup) {a : String} {p q : α}
    (hp : (a, p) ∈ l) (hq : (a, q) ∈ l) : p = q := by
  induction l with
  | nil => simp at hp
  | cons hd tl ih =>
      obtain ⟨k', v⟩ := hd
      simp at hnd
      rcases List.mem_cons.mp hp with hp1 | hp1
      · injection hp1 with ha hv
        rcases List.mem_cons.mp hq with hq1 | hq1
        · injection hq1 with ha2 hv2
          rw [hv, hv2]
        · exact absurd (ha ▸ hq1) (hnd.1 q)
      · rcases List.mem_cons.mp hq with hq1 | hq1
        · injection hq1 with ha2 hv2
          exact absurd (ha2 ▸ hp1) (hnd.1 p)
        · exact ih hnd.2 hp1 hq1

namespace NDPStats

theorem pruneMsgs_cons_empty {cutoff : Int} {k : String} {ts : List Int}
    {tl : List (String × List Int)}
    (h : (ts.filter (isAfter cutoff)).isEmpty = true) :
    pruneMsgs cutoff ((k, ts) :: tl) = pruneMsgs cutoff tl := by
  simp only [pruneMsgs]
  rw [List.filterMap_cons_none]
  simp [h]

theorem pruneMsgs_cons_nonempty {cutoff : Int} {k : String} {ts : List Int}
    {tl : List (String × List Int)}
    (h : ¬ (ts.filter (isAfter cutoff)).isEmpty = true) :
    pruneMsgs cutoff ((k, ts) :: tl) =
      (k, ts.filter (isAfter cutoff)) :: pruneMsgs cutoff tl := by
  simp only [pruneMsgs]
  rw [List.filterMap_cons_some (b := (k, ts.filter (isAfter cutoff)))]
  simp [h]

theorem pruneMsgs_sum (cutoff : Int) (msgs : List (String × List Int)) :
    ((pruneMsgs cutoff msgs).map (·.2.length)).sum =
      (msgs.map (fun kt => kt.2.countP (isAfter cutoff))).sum := by
  induction msgs with
  | nil => simp [pruneMsgs]
  | cons hd tl ih =>
      obtain ⟨k, ts⟩ := hd
      by_cases h : (ts.filter (isAfter cutoff)).isEmpty
      · rw [pruneMsgs_cons_empty h]
        simp only [List.map_cons, List.sum_cons]
        rw [List.countP_eq_length_filter, List.isEmpty_iff.mp h]
        simp [ih]
      · rw [pruneMsgs_cons_nonempty h]
        simp only [List.map_cons, List.sum_cons]
        rw [List.countP_eq_length_filter, ih]

theorem keys_pruneMsgs_sub {cutoff : Int} {msgs : List (String × List Int)}
    {k : String} (h : k ∈ (pruneMsgs cutoff msgs).map Prod.fst) :
    k ∈ msgs.map Prod.fst := by
  induction msgs with
  | nil => simp [pruneMsgs] at h
  | cons hd tl ih =>
      obtain ⟨k', ts⟩ := hd
      by_cases he : (ts.filter (isAfter cutoff)).isEmpty
      · rw [pruneMsgs_cons_empty he] at h
        exact List.mem_cons.mpr (Or.inr (ih h))
      · rw [pruneMsgs_cons_nonempty he, List.map_cons] at h
        rcases List.mem_cons.mp h with h1 | h1
        · simp [h1]
        · exact List.mem_cons.mpr (Or.inr (ih h1))

theorem alookup_pruneMsgs (cutoff : Int) (msgs : List (String × List Int))
    (hnd : (msgs.map Prod.fst).Nodup) (k : String) :
    alookup (pruneMsgs cutoff msgs) k =
      (match alookup msgs k with
       | none => none
       | some ts =>
          if ts.filter (isAfter cutoff) = [] then none
          else some (ts.filter (isAfter cutoff))) := by
  induction msgs with
  | nil => simp [pruneMsgs, alookup]
  | cons hd tl ih =>
      obtain ⟨k', ts⟩ := hd
      simp at hnd
      by_cases he : (ts.filter (isAfter cutoff)).isEmpty
      · rw [pruneMsgs_cons_empty he]
        by_cases hk : k' = k
        · subst hk
          have hnone : alookup (pruneMsgs cutoff tl) k' = none := by
            apply alookup_none_of_not_mem
            intro hmem
            obtain ⟨⟨x1, x2⟩, hx, hfst⟩ := List.mem_map.mp (keys_pruneMsgs_sub hmem)
            exact hnd.1 x2 (hfst ▸ hx)
          rw [hnone]
          simp [alookup, List.isEmpty_iff.mp he]
        · rw [ih hnd.2]
          simp [alookup, hk]
      · rw [pruneMsgs_cons_nonempty he]
        by_cases hk : k' = k
        · subst hk
          have hne : ¬ ts.filter (isAfter cutoff) = [] := by
            intro habs
            rw [habs] at he
            simp at he
          simp [alookup, hne]
        · rw [alookup, alookup]
          simp only [hk, if_false]
          exact ih hnd.2

end NDPStats

namespace NDPStats

/-- A peer of `s` with no in-window message timestamps is wholly absent after
    Prune (keys of a Go map are unique, hence the Nodup hypothesis). -/
theorem prune_drop_aux (s : NDPStats) (now : Int)
    (hnd : (s.peers.map Prod.fst).Nodup) {a : String} {p : PeerStats}
    (hap : (a, p) ∈ s.peers) (h0 : inWinTotal (now - s.window) p = 0) :
    ∀ q, (a, q) ∉ (prune s now).peers := by
  intro q hq
  simp only [prune, List.mem_filterMap] at hq
  obtain ⟨⟨a2, p2⟩, hmem, heq⟩ := hq
  split at heq
  · simp at heq
  · rename_i hne
    simp only [Option.some.injEq, Prod.mk.injEq] at heq
    obtain ⟨ha2, -⟩ := heq
    subst ha2
    have : p2 = p := keys_nodup_unique hnd hmem hap
    subst this
    apply hne
    simpa [prunePeer, pruneMsgs_sum, inWinTotal] using h0

end NDPStats

/-- C1: Prune computes cutoff = now - window and then: drops every message
    timestamp ≤ cutoff, deletes a kind's entry entirely when no timestamps
    remain (no empty sequence survives), drops every group entry whose last
    report is ≤ cutoff, and removes the whole peer record whenever zero
    in-window message timestamps remain across all kinds — even if the peer
    still has in-window groups or a recorded MAC — so such a peer no longer
    appears in any subsequent snapshot. -/
theorem prune_behavior (s : NDPStats) (now : Int) (hWF : NDPStats.WF s) :
    (∀ a p, (a, p) ∈ s.peers → 0 < NDPStats.inWinTotal (now - s.window) p →
      ∃ p2, (a, p2) ∈ (NDPStats.prune s now).peers ∧
        p2.firstSeen = p.firstSeen ∧ p2.lastSeen = p.lastSeen ∧ p2.mac = p.mac ∧
        (∀ k, alookup p2.messages k =
          (match alookup p.messages k with
           | none => none
           | some ts =>
              if ts.filter (isAfter (now - s.window)) = [] then none
              else some (ts.filter (isAfter (now - s.window))))) ∧
        (∀ g tg, (g, tg) ∈ p2.groups ↔
          ((g, tg) ∈ p.groups ∧ now - s.window < tg))) ∧
    (∀ a p, (a, p) ∈ s.peers → NDPStats.inWinTotal (now - s.window) p = 0 →
      ∀ q, (a, q) ∉ (NDPStats.prune s now).peers) ∧
    (∀ a p, (a, p) ∈ (NDPStats.prune s now).peers →
      ∀ k ts, (k, ts) ∈ p.messages → ts ≠ []) ∧
    (∀ a p, (a, p) ∈ s.peers → NDPStats.inWinTotal (now - s.window) p = 0 →
      ∀ now2 sm, sm ∈ NDPStats.getStats (NDPStats.prune s now) now2 →
        sm.address ≠ a) := by
  refine ⟨?_, fun a p hap h0 => NDPStats.prune_drop_aux s now hWF.1 hap h0, ?_, ?_⟩
  · intro a p hap hpos
    refine ⟨(NDPStats.prunePeer (now - s.window) p).1, ?_, rfl, rfl, rfl, ?_, ?_⟩
    · apply List.mem_filterMap.mpr
      refine ⟨(a, p), hap, ?_⟩
      have hpos2 : 0 < ((NDPStats.pruneMsgs (now - s.window) p.messages).map
          (·.2.length)).sum := by
        rw [NDPStats.pruneMsgs_sum]
        simpa [NDPStats.inWinTotal] using hpos
      have hne : (NDPStats.prunePeer (now - s.window) p).2 ≠ 0 := by
        show ((NDPStats.pruneMsgs (now - s.window) p.messages).map
          (·.2.length)).sum ≠ 0
        omega
      simp [NDPStats.prune, hne]
    · intro k
      have := NDPStats.alookup_pruneMsgs (now - s.window) p.messages
        ((hWF.2 (a, p) hap).1) k
      simpa [NDPStats.prunePeer] using this
    · intro g tg
      simp [NDPStats.prunePeer, List.mem_filter, isAfter]
  · intro a p hmem k ts hk
    simp only [NDPStats.prune, List.mem_filterMap] at hmem
    obtain ⟨⟨a2, p2⟩, hmem2, heq⟩ := hmem
    split at heq
    · simp at heq
    · simp only [Option.some.injEq, Prod.mk.injEq] at heq
      obtain ⟨-, hp⟩ := heq
      rw [← hp] at hk
      simp only [NDPStats.prunePeer] at hk
      obtain ⟨kt, hkt, hif⟩ := List.mem_filterMap.mp hk
      by_cases hemp : (kt.2.filter (isAfter (now - s.window))).isEmpty
      · simp [hemp] at hif
      · simp [hemp] at hif
        intro habs
        apply hemp
        rw [hif.2, habs]
        rfl
  · intro a p hap h0 now2 sm hsm heq
    obtain ⟨⟨a2, p2⟩, hmem, hsmeq⟩ :=
      List.mem_map.mp ((List.mem_insertionSort _).mp hsm)
    subst hsmeq
    simp only [NDPStats.summarize] at heq
    subst heq
    exact NDPStats.prune_drop_aux s now hWF.1 hap h0 p2 hmem

theorem prune_behavior_witness :
    ("old", (⟨1, 1, [("neighbor_solicitation", [1])], [("ff02::fb", 9)],
        "aa:bb:cc:dd:ee:01"⟩ : PeerStats)) ∉
      (NDPStats.prune
        { peers := [("old", ⟨1, 1, [("neighbor_solicitation", [1])],
            [("ff02::fb", 9)], "aa:bb:cc:dd:ee:01"⟩)],
          window := 5 } 10).peers :=
  (prune_behavior
    { peers := [("old", ⟨1, 1, [("neighbor_solicitation", [1])],
        [("ff02::fb", 9)], "aa:bb:cc:dd:ee:01"⟩)],
      window := 5 } 10 (by decide)).2.1 "old"
    ⟨1, 1, [("neighbor_solicitation", [1])], [("ff02::fb", 9)], "aa:bb:cc:dd:ee:01"⟩
    (by decide) (by decide) _

theorem getStats_behavior_witness :
    ∃ sm ∈ NDPStats.getStats
        (NDPStats.recordMAC (NDPStats.init 60) "fe80::99" "11:22:33:44:55:66" 5) 10,
      sm.address = "fe80::99" ∧ sm.mac = "11:22:33:44:55:66" ∧ sm.total = 0 := by
  obtain ⟨sm, hsm, haddr, hfs, hls, hmac, hcounts, htotal, hgroups, hsorted⟩ :=
    (getStats_behavior
      (NDPStats.recordMAC (NDPStats.init 60) "fe80::99" "11:22:33:44:55:66" 5) 10).2.1
      "fe80::99" ⟨5, 0, [], [], "11:22:33:44:55:66"⟩ (by decide)
  exact ⟨sm, hsm, haddr, hmac, by simpa using htotal⟩

/-- Read one byte of a buffer; out-of-range reads yield 0 and are never used by
    the parsers except behind the explicit bounds checks the Go code performs. -/
def byteAt (buf : List Nat) (i : Nat) : Nat := buf.getD i 0

/-- binary.BigEndian.Uint16 over the model buffer. -/
def be16 (buf : List Nat) (i : Nat) : Nat := byteAt buf i * 256 + byteAt buf (i + 1)

/-- binary.BigEndian.Uint32 over the model buffer. -/
def be32 (buf : List Nat) (i : Nat) : Nat :=
  byteAt buf i * 16777216 + byteAt buf (i + 1) * 65536 +
    byteAt buf (i + 2) * 256 + byteAt buf (i + 3)

/-- classifyICMPv6 (ndp_listener.go): map an ICMPv6 type code to the internal
    kind string, or "" for types that are not NDP/MLD. -/
def classifyICMPv6 (t : Nat) : String :=
  match t with
  | 133 => "router_solicitation"
  | 134 => "router_advertisement"
  | 135 => "neighbor_solicitation"
  | 136 => "neighbor_advertisement"
  | 157 => "duplicate_address_request"
  | 158 => "duplicate_address_confirmation"
  | 137 => "redirect"
  | 130 => "mld_query"
  | 131 => "mld_report"
  | 132 => "mld_done"
  | 143 => "mld_report"
  | _ => ""

/-- ndpOptionsOffset (ndp_listener.go): byte offset where NDP options begin for
    a message type; `none` models the Go sentinel -1 for unsupported types. -/
def ndpOptionsOffset (icmpType : Nat) : Option Nat :=
  match icmpType with
  | 133 => some 8
  | 134 => some 16
  | 135 => some 24
  | 136 => some 24
  | 137 => some 40
  | _ => none

/-- One lowercase hex digit. -/
def hexDigit (n : Nat) : Char :=
  if n < 10 then Char.ofNat (48 + n) else Char.ofNat (87 + n)

/-- One byte as two lowercase hex digits, as Go's %02x does. -/
def byteHex (b : Nat) : String :=
  String.mk [hexDigit (b / 16 % 16), hexDigit (b % 16)]

/-- net.HardwareAddr.String: colon-separated lowercase hex. -/
def macString (bytes : List Nat) : String :=
  String.intercalate ":" (bytes.map byteHex)

/-- The TLV option walk of parseLinkLayerAddr, with an explicit fuel argument
    standing for the loop's iteration budget (`none` = budget exhausted; the
    top-level wrapper supplies enough fuel, and `llWalkF_isSome` proves the
    budget is never exhausted, i.e. the Go loop terminates). -/
def llWalkF : Nat → List Nat → Nat → Nat → Option String
  | 0, _, _, _ => none
  | fuel + 1, buf, optionType, offset =>
    if offset + 2 ≤ buf.length then
      let oType := byteAt buf offset
      let oLen := byteAt buf (offset + 1) * 8
      if oLen = 0 then some ""
      else if buf.length < offset + oLen then some ""
      else if oType = optionType ∧ 8 ≤ oLen then
        some (macString ((buf.drop (offset + 2)).take 6))
      else llWalkF fuel buf optionType (offset + oLen)
    else some ""

/-- parseLinkLayerAddr (ndp_listener.go): extract a link-layer address from the
    NDP option chain; "" models Go's empty-string "not found" result. -/
def parseLinkLayerAddr (buf : List Nat) (optionType : Nat) : String :=
  if buf.length < 1 then ""
  else
    match ndpOptionsOffset (byteAt buf 0) with
    | none => ""
    | some offset =>
        if buf.length < offset then ""
        else (llWalkF (buf.length + 1) buf optionType offset).getD ""

/-- PrefixInfo (RA Prefix Information option).  Go renders the prefix as the
    CIDR text "addr/len"; the model keeps the 16 raw address bytes and the
    length, an injective representation of that text. -/
structure PrefixInfo where
  pfx : List Nat
  pfxLen : Nat
  validLifetime : Nat
  preferredLife : Nat
  onLink : Bool
  autonomous : Bool
deriving Repr, DecidableEq

/-- RouteInfo (RA Route Information option, RFC 4191); prefix kept as raw
    bytes as in `PrefixInfo`, lifetimes in seconds. -/
structure RouteInfo where
  pfx : List Nat
  pfxLen : Nat
  preference : Nat
  lifetime : Nat
deriving Repr, DecidableEq

/-- RouterInfo: decoded Router Advertisement.  `lifetime` is in seconds
    (Go stores seconds scaled to a Duration); RDNSS servers are kept as raw
    16-byte addresses. -/
structure RouterInfo where
  address : String
  mac : String
  iface : String
  hopLimit : Int
  managed : Bool
  other : Bool
  lifetime : Nat
  mtu : Nat
  prefixes : List PrefixInfo
  routes : List RouteInfo
  rdnss : List (List Nat)
  lastSeen : Int
deriving Repr, DecidableEq

/-- parseRAPrefixInfo (ndp_listener.go): decode a 32-byte Prefix Information
    option (`opt` is the full option slice) and append it. -/
def parseRAPrefixInfo (opt : List Nat) (ri : RouterInfo) : RouterInfo :=
  { ri with prefixes := ri.prefixes ++
      [{ pfx := (opt.drop 16).take 16
         pfxLen := byteAt opt 2
         validLifetime := be32 opt 4
         preferredLife := be32 opt 8
         onLink := (byteAt opt 3) &&& 128 != 0
         autonomous := (byteAt opt 3) &&& 64 != 0 }] }

/-- parseRARouteInfo (ndp_listener.go): decode a Route Information option;
    the prefix is the option bytes after the 8-byte header, at most 16,
    zero-padded to 16 bytes. -/
def parseRARouteInfo (opt : List Nat) (oLen : Nat) (ri : RouterInfo) : RouterInfo :=
  let copyLen := min (oLen - 8) 16
  { ri with routes := ri.routes ++
      [{ pfx := (opt.drop 8).take copyLen ++ List.replicate (16 - copyLen) 0
         pfxLen := byteAt opt 2
         preference := ((byteAt opt 3) >>> 3) &&& 3
         lifetime := be32 opt 4 }] }

/-- The address-collecting loop of parseRARDNSS: every full 16-byte block
    starting at offset 8 within the option. -/
def rdnssLoop (opt : List Nat) (oLen : Nat) : Nat → Nat → List (List Nat)
  | 0, _ => []
  | fuel + 1, off =>
      if off + 16 ≤ oLen ∧ off + 16 ≤ opt.length then
        ((opt.drop off).take 16) :: rdnssLoop opt oLen fuel (off + 16)
      else []

/-- parseRARDNSS (ndp_listener.go): append every RDNSS server address. -/
def parseRARDNSS (opt : List Nat) (oLen : Nat) (ri : RouterInfo) : RouterInfo :=
  { ri with rdnss := ri.rdnss ++ rdnssLoop opt oLen oLen 8 }

/-- The option dispatch inside parseRA's TLV loop (the Go switch statement). -/
def applyRAOption (buf : List Nat) (offset oLen oType : Nat) (ri : RouterInfo) :
    RouterInfo :=
  let opt := (buf.drop offset).take oLen
  match oType with
  | 3 => if 32 ≤ oLen then parseRAPrefixInfo opt ri else ri
  | 5 => if 8 ≤ oLen then { ri with mtu := be32 buf (offset + 4) } else ri
  | 24 => if 8 ≤ oLen then parseRARouteInfo opt oLen ri else ri
  | 25 => if 24 ≤ oLen then parseRARDNSS opt oLen ri else ri
  | _ => ri

/-- The RA option TLV walk with explicit fuel (same convention as `llWalkF`). -/
def raWalkF : Nat → List Nat → Nat → RouterInfo → Option RouterInfo
  | 0, _, _, _ => none
  | fuel + 1, buf, offset, ri =>
    if offset + 2 ≤ buf.length then
      let oType := byteAt buf offset
      let oLen := byteAt buf (offset + 1) * 8
      if oLen = 0 then some ri
      else if buf.length < offset + oLen then some ri
      else raWalkF fuel buf (offset + oLen) (applyRAOption buf offset oLen oType ri)
    else some ri

/-- The fixed-field part of parseRA: hop limit from byte 4 (falling back to
    the control-message hop limit when byte 4 is zero and that value is
    nonzero), M and O flags from bits 7 and 6 of byte 5, lifetime from the
    big-endian 16-bit value at bytes 6-7. -/
def raHeader (buf : List Nat) (srcIP mac : String) (hopLimit : Int)
    (ifName : String) (now : Int) : RouterInfo :=
  let ri0 : RouterInfo :=
    { address := srcIP
      mac := mac
      iface := ifName
      hopLimit := (byteAt buf 4 : Int)
      managed := (byteAt buf 5) &&& 128 != 0
      other := (byteAt buf 5) &&& 64 != 0
      lifetime := be16 buf 6
      mtu := 0
      prefixes := []
      routes := []
      rdnss := []
      lastSeen := now }
  if ri0.hopLimit = 0 ∧ hopLimit ≠ 0 then { ri0 with hopLimit := hopLimit } else ri0

/-- parseRA (ndp_listener.go): decode the fixed RA header, apply the
    control-message hop-limit fallback and walk the options from byte 16. -/
def parseRA (buf : List Nat) (srcIP mac : String) (hopLimit : Int)
    (ifName : String) (now : Int) : Option RouterInfo :=
  if buf.length < 16 then none
  else
    let ri1 := raHeader buf srcIP mac hopLimit ifName now
    some ((raWalkF (buf.length + 1) buf 16 ri1).getD ri1)

/-- net.IP.IsUnspecified on a 16-byte address: equal to the IPv6 unspecified
    address :: (all bytes zero) or to Go's IPv4zero in its 16-byte
    IPv4-mapped form ::ffff:0.0.0.0 (ten zero bytes, 0xff, 0xff, four zero
    bytes). -/
def ipIsUnspecified (bytes : List Nat) : Bool :=
  bytes == List.replicate 16 0 ||
  bytes == (List.replicate 10 0 ++ [255, 255] ++ List.replicate 4 0)

/-- parseMLDv1Groups (ndp_listener.go): MLDv1 Report/Done carry one group
    address at bytes 8..24; the unspecified address is excluded. -/
def parseMLDv1Groups (buf : List Nat) : List (List Nat) :=
  if buf.length < 24 then []
  else
    let group := (buf.drop 8).take 16
    if ipIsUnspecified group then [] else [group]

/-- The record loop of parseMLDv2Groups, recursing on the remaining record
    count exactly as the Go `for i < numRecords` loop does. -/
def mldv2Loop (buf : List Nat) : Nat → Nat → List (List Nat)
  | 0, _ => []
  | rem + 1, offset =>
    if buf.length < offset + 20 then []
    else
      let auxDataLen := byteAt buf (offset + 1)
      let numSources := be16 buf (offset + 2)
      let group := (buf.drop (offset + 4)).take 16
      let rest := mldv2Loop buf rem (offset + 20 + numSources * 16 + auxDataLen * 4)
      if ipIsUnspecified group then rest else group :: rest

/-- parseMLDv2Groups (ndp_listener.go). -/
def parseMLDv2Groups (buf : List Nat) : List (List Nat) :=
  if buf.length < 8 then []
  else
    let numRecords := be16 buf 6
    if numRecords = 0 then [] else mldv2Loop buf numRecords 8

/-- parseMLDGroups (ndp_listener.go): dispatch on the ICMPv6 type byte. -/
def parseMLDGroups (buf : List Nat) : List (List Nat) :=
  if buf.length < 4 then []
  else
    match byteAt buf 0 with
    | 131 => parseMLDv1Groups buf
    | 132 => parseMLDv1Groups buf
    | 143 => parseMLDv2Groups buf
    | _ => []

/-- C8: classifyICMPv6 is total over the type-code domain: each of the eleven
    supported codes maps to its documented kind string, every other byte value
    maps to "" (none), and MLDv1 Report (131) and MLDv2 Report (143) collapse
    to the same mld_report kind. -/
theorem classify_total :
    classifyICMPv6 133 = "router_solicitation" ∧
    classifyICMPv6 134 = "router_advertisement" ∧
    classifyICMPv6 135 = "neighbor_solicitation" ∧
    classifyICMPv6 136 = "neighbor_advertisement" ∧
    classifyICMPv6 137 = "redirect" ∧
    classifyICMPv6 157 = "duplicate_address_request" ∧
    classifyICMPv6 158 = "duplicate_address_confirmation" ∧
    classifyICMPv6 130 = "mld_query" ∧
    classifyICMPv6 131 = "mld_report" ∧
    classifyICMPv6 132 = "mld_done" ∧
    classifyICMPv6 143 = "mld_report" ∧
    classifyICMPv6 131 = classifyICMPv6 143 ∧
    (∀ t, t < 256 →
      t ∉ ([133, 134, 135, 136, 137, 157, 158, 130, 131, 132, 143] : List Nat) →
      classifyICMPv6 t = "") := by
  refine ⟨rfl, rfl, rfl, rfl, rfl, rfl, rfl, rfl, rfl, rfl, rfl, rfl, ?_⟩
  set_option maxRecDepth 4096 in decide

/-- The link-layer option walk never exhausts a fuel budget larger than the
    bytes remaining: every accepted option advances the offset, so the loop
    terminates. -/
theorem llWalkF_isSome : ∀ (fuel : Nat) (buf : List Nat) (w off : Nat),
    buf.length - off < fuel → (llWalkF fuel buf w off).isSome := by
  intro fuel
  induction fuel with
  | zero => intro buf w off h; omega
  | succ fuel ih =>
      intro buf w off h
      simp only [llWalkF]
      by_cases h1 : off + 2 ≤ buf.length
      · rw [if_pos h1]
        by_cases h2 : byteAt buf (off + 1) * 8 = 0
        · simp [h2]
        · rw [if_neg h2]
          by_cases h3 : buf.length < off + byteAt buf (off + 1) * 8
          · simp [h3]
          · rw [if_neg h3]
            by_cases h4 : byteAt buf off = w ∧ 8 ≤ byteAt buf (off + 1) * 8
            · simp [h4]
            · rw [if_neg h4]
              exact ih buf w (off + byteAt buf (off + 1) * 8) (by omega)
      · simp [h1]

/-- Same termination property for the RA option walk. -/
theorem raWalkF_isSome : ∀ (fuel : Nat) (buf : List Nat) (off : Nat)
    (ri : RouterInfo), buf.length - off < fuel → (raWalkF fuel buf off ri).isSome := by
  intro fuel
  induction fuel with
  | zero => intro buf off ri h; omega
  | succ fuel ih =>
      intro buf off ri h
      simp only [raWalkF]
      by_cases h1 : off + 2 ≤ buf.length
      · rw [if_pos h1]
        by_cases h2 : byteAt buf (off + 1) * 8 = 0
        · simp [h2]
        · rw [if_neg h2]
          by_cases h3 : buf.length < off + byteAt buf (off + 1) * 8
          · simp [h3]
          · rw [if_neg h3]
            exact ih buf (off + byteAt buf (off + 1) * 8) _ (by omega)
      · simp [h1]

/-- C4: every parser is total — the TLV walks complete within a fuel budget of
    the buffer length (so the Go loops terminate), a zero-length option stops
    traversal, an option running past the buffer end stops traversal, every
    accepted option advances the offset by at least 8 bytes while staying in
    bounds, and parseLinkLayerAddr, parseMLDGroups and parseRA return a value
    on every input. -/
theorem parser_safety (buf : List Nat) (w off fuel : Nat) (ri : RouterInfo)
    (sip mc ifn : String) (hl now : Int) :
    (buf.length - off < fuel → (llWalkF fuel buf w off).isSome) ∧
    (buf.length - off < fuel → (raWalkF fuel buf off ri).isSome) ∧
    (byteAt buf (off + 1) = 0 →
      llWalkF (fuel + 1) buf w off = some "" ∧
      raWalkF (fuel + 1) buf off ri = some ri) ∧
    (byteAt buf (off + 1) ≠ 0 → buf.length < off + byteAt buf (off + 1) * 8 →
      llWalkF (fuel + 1) buf w off = some "" ∧
      raWalkF (fuel + 1) buf off ri = some ri) ∧
    (off + 2 ≤ buf.length → byteAt buf (off + 1) ≠ 0 →
     off + byteAt buf (off + 1) * 8 ≤ buf.length →
      8 ≤ byteAt buf (off + 1) * 8 ∧
      (llWalkF (fuel + 1) buf w off =
         llWalkF fuel buf w (off + byteAt buf (off + 1) * 8) ∨
       llWalkF (fuel + 1) buf w off =
         some (macString ((buf.drop (off + 2)).take 6))) ∧
      raWalkF (fuel + 1) buf off ri =
        raWalkF fuel buf (off + byteAt buf (off + 1) * 8)
          (applyRAOption buf off (byteAt buf (off + 1) * 8) (byteAt buf off) ri)) ∧
    (∃ r, parseLinkLayerAddr buf w = r) ∧
    (∃ g, parseMLDGroups buf = g) ∧
    (∃ rr, parseRA buf sip mc hl ifn now = rr) := by
  refine ⟨llWalkF_isSome fuel buf w off, raWalkF_isSome fuel buf off ri,
    ?_, ?_, ?_, ⟨_, rfl⟩, ⟨_, rfl⟩, ⟨_, rfl⟩⟩
  · intro hz
    constructor
    · simp only [llWalkF]
      by_cases h1 : off + 2 ≤ buf.length
      · rw [if_pos h1, if_pos (by simp [hz])]
      · rw [if_neg h1]
    · simp only [raWalkF]
      by_cases h1 : off + 2 ≤ buf.length
      · rw [if_pos h1, if_pos (by simp [hz])]
      · rw [if_neg h1]
  · intro hnz hover
    constructor
    · simp only [llWalkF]
      by_cases h1 : off + 2 ≤ buf.length
      · rw [if_pos h1, if_neg (by omega), if_pos hover]
      · rw [if_neg h1]
    · simp only [raWalkF]
      by_cases h1 : off + 2 ≤ buf.length
      · rw [if_pos h1, if_neg (by omega), if_pos hover]
      · rw [if_neg h1]
  · intro h1 hnz hfit
    have h8 : 8 ≤ byteAt buf (off + 1) * 8 := by omega
    refine ⟨h8, ?_, ?_⟩
    · by_cases h4 : byteAt buf off = w ∧ 8 ≤ byteAt buf (off + 1) * 8
      · right
        simp only [llWalkF]
        rw [if_pos h1, if_neg (by omega), if_neg (by omega), if_pos h4]
      · left
        simp only [llWalkF]
        rw [if_pos h1, if_neg (by omega), if_neg (by omega), if_neg h4]
    · simp only [raWalkF]
      rw [if_pos h1, if_neg (by omega), if_neg (by omega)]

theorem parser_safety_witness :
    8 ≤ byteAt [2, 1, 170, 187, 204, 221, 238, 1] 1 * 8 ∧
    (llWalkF 2 [2, 1, 170, 187, 204, 221, 238, 1] 1 0 =
       llWalkF 1 [2, 1, 170, 187, 204, 221, 238, 1] 1
         (0 + byteAt [2, 1, 170, 187, 204, 221, 238, 1] 1 * 8) ∨
     llWalkF 2 [2, 1, 170, 187, 204, 221, 238, 1] 1 0 =
       some (macString (([2, 1, 170, 187, 204, 221, 238, 1].drop (0 + 2)).take 6))) ∧
    raWalkF 2 [2, 1, 170, 187, 204, 221, 238, 1] 0
        ⟨"", "", "", 0, false, false, 0, 0, [], [], [], 0⟩ =
      raWalkF 1 [2, 1, 170, 187, 204, 221, 238, 1]
        (0 + byteAt [2, 1, 170, 187, 204, 221, 238, 1] 1 * 8)
        (applyRAOption [2, 1, 170, 187, 204, 221, 238, 1] 0
          (byteAt [2, 1, 170, 187, 204, 221, 238, 1] 1 * 8)
          (byteAt [2, 1, 170, 187, 204, 221, 238, 1] 0)
          ⟨"", "", "", 0, false, false, 0, 0, [], [], [], 0⟩) :=
  (parser_safety [2, 1, 170, 187, 204, 221, 238, 1] 1 0 1
      ⟨"", "", "", 0, false, false, 0, 0, [], [], [], 0⟩ "" "" "" 0 0).2.2.2.2.1
    (by decide) (by decide) (by decide)

/-- Spec-side description of one MLDv2 record stride: 20 fixed bytes plus
    sources (big-endian 16-bit at record offset 2) times 16 plus aux words
    (byte at record offset 1) times 4. -/
def recAdv (buf : List Nat) (off : Nat) : Nat :=
  off + 20 + be16 buf (off + 2) * 16 + byteAt buf (off + 1) * 4

/-- Spec-side list of record offsets actually visited: start at the given
    offset, stop when the declared count is exhausted or fewer than 20 bytes
    remain, and advance by `recAdv`. -/
def recOffs (buf : List Nat) : Nat → Nat → List Nat
  | 0, _ => []
  | r + 1, off =>
      if buf.length < off + 20 then [] else off :: recOffs buf r (recAdv buf off)

/-- Spec-side final result for an MLDv2 Report: the 16-byte group address of
    every visited record, except the unspecified address. -/
def mldv2SpecGroups (buf : List Nat) : List (List Nat) :=
  ((recOffs buf (be16 buf 6) 8).map (fun o => (buf.drop (o + 4)).take 16)).filter
    (fun g => !ipIsUnspecified g)

theorem mldv2Loop_eq_spec (buf : List Nat) :
    ∀ (n off : Nat), mldv2Loop buf n off =
      ((recOffs buf n off).map (fun o => (buf.drop (o + 4)).take 16)).filter
        (fun g => !ipIsUnspecified g) := by
  intro n
  induction n with
  | zero => intro off; simp [mldv2Loop, recOffs]
  | succ n ih =>
      intro off
      simp only [mldv2Loop, recOffs]
      by_cases h : buf.length < off + 20
      · rw [if_pos h, if_pos h]
        simp
      · rw [if_neg h, if_neg h]
        simp only [List.map_cons, List.filter_cons]
        by_cases hu : ipIsUnspecified ((buf.drop (off + 4)).take 16)
        · rw [if_pos hu]
          simp [hu, ih, recAdv]
        · rw [if_neg hu]
          simp [hu, ih, recAdv]

/-- C5: for a buffer whose first byte is 143 (MLDv2 Report), extraction
    returns empty for buffers shorter than 8 bytes and for a zero record
    count, and otherwise returns exactly the non-unspecified 16-byte group
    addresses of the records visited per the spec's iteration rule: start at
    offset 8, stop early when fewer than 20 bytes remain (partial result),
    advance by 20 + sources*16 + auxWords*4. -/
theorem mldv2_extraction (buf : List Nat) (h143 : byteAt buf 0 = 143) :
    (buf.length < 8 → parseMLDGroups buf = []) ∧
    (8 ≤ buf.length → be16 buf 6 = 0 → parseMLDGroups buf = []) ∧
    (8 ≤ buf.length → parseMLDGroups buf = mldv2SpecGroups buf) := by
  refine ⟨?_, ?_, ?_⟩
  · intro hlen
    by_cases h4 : buf.length < 4
    · simp [parseMLDGroups, h4]
    · simp [parseMLDGroups, h4, h143, parseMLDv2Groups, hlen]
  · intro hlen hzero
    simp [parseMLDGroups, (by omega : ¬ buf.length < 4), h143, parseMLDv2Groups,
      (by omega : ¬ buf.length < 8), hzero]
  · intro hlen
    by_cases hz : be16 buf 6 = 0
    · simp [parseMLDGroups, (by omega : ¬ buf.length < 4), h143, parseMLDv2Groups,
        (by omega : ¬ buf.length < 8), hz, mldv2SpecGroups, recOffs]
    · simp only [parseMLDGroups, if_neg (by omega : ¬ buf.length < 4), h143,
        parseMLDv2Groups, if_neg (by omega : ¬ buf.length < 8), hz, if_neg hz,
        mldv2SpecGroups]
      exact mldv2Loop_eq_spec buf _ 8

theorem mldv2_extraction_witness :
    parseMLDGroups ([143, 0, 0, 0, 0, 0, 0, 4] ++
      ([4, 0, 0, 0] ++ [255, 2, 0, 0, 0, 0, 0, 0, 0, 0, 0, 0, 0, 0, 0, 251]) ++
      ([4, 0, 0, 0] ++ List.replicate 16 0) ++
      ([4, 0, 0, 0] ++ (List.replicate 10 0 ++ [255, 255] ++ List.replicate 4 0))) =
      [[255, 2, 0, 0, 0, 0, 0, 0, 0, 0, 0, 0, 0, 0, 0, 251]] :=
  ((mldv2_extraction ([143, 0, 0, 0, 0, 0, 0, 4] ++
      ([4, 0, 0, 0] ++ [255, 2, 0, 0, 0, 0, 0, 0, 0, 0, 0, 0, 0, 0, 0, 251]) ++
      ([4, 0, 0, 0] ++ List.replicate 16 0) ++
      ([4, 0, 0, 0] ++ (List.replicate 10 0 ++ [255, 255] ++ List.replicate 4 0)))
      (by decide)).2.2 (by decide)).trans
    (by decide)

theorem land_testBit (n i : Nat) : ((n &&& 2 ^ i) != 0) = n.testBit i := by
  have h := Nat.and_two_pow n i
  cases hb : n.testBit i
  · simp [h, hb]
  · simp [h, hb, Nat.pos_iff_ne_zero]

theorem raHeader_hopLimit (buf : List Nat) (sip mc ifn : String) (hl now : Int) :
    (raHeader buf sip mc hl ifn now).hopLimit =
      (if byteAt buf 4 = 0 ∧ hl ≠ 0 then hl else (byteAt buf 4 : Int)) := by
  simp only [raHeader]
  by_cases h : byteAt buf 4 = 0 ∧ hl ≠ 0
  · rw [if_pos (by simpa using h), if_pos h]
  · rw [if_neg (by simpa using h), if_neg h]

theorem raHeader_fields (buf : List Nat) (sip mc ifn : String) (hl now : Int) :
    (raHeader buf sip mc hl ifn now).managed = ((byteAt buf 5) &&& 128 != 0) ∧
    (raHeader buf sip mc hl ifn now).other = ((byteAt buf 5) &&& 64 != 0) ∧
    (raHeader buf sip mc hl ifn now).lifetime = be16 buf 6 := by
  simp only [raHeader]
  split <;> exact ⟨rfl, rfl, rfl⟩

theorem applyRAOption_fields (buf : List Nat) (offset oLen oType : Nat)
    (ri : RouterInfo) :
    (applyRAOption buf offset oLen oType ri).hopLimit = ri.hopLimit ∧
    (applyRAOption buf offset oLen oType ri).managed = ri.managed ∧
    (applyRAOption buf offset oLen oType ri).other = ri.other ∧
    (applyRAOption buf offset oLen oType ri).lifetime = ri.lifetime := by
  unfold applyRAOption
  split
  · split <;> exact ⟨rfl, rfl, rfl, rfl⟩
  · split <;> exact ⟨rfl, rfl, rfl, rfl⟩
  · split <;> exact ⟨rfl, rfl, rfl, rfl⟩
  · split <;> exact ⟨rfl, rfl, rfl, rfl⟩
  · exact ⟨rfl, rfl, rfl, rfl⟩

/-- The RA option walk never touches the fixed header fields. -/
theorem raWalkF_fields : ∀ (fuel : Nat) (buf : List Nat) (off : Nat)
    (ri ri2 : RouterInfo), raWalkF fuel buf off ri = some ri2 →
    ri2.hopLimit = ri.hopLimit ∧ ri2.managed = ri.managed ∧
    ri2.other = ri.other ∧ ri2.lifetime = ri.lifetime := by
  intro fuel
  induction fuel with
  | zero => intro buf off ri ri2 h; simp [raWalkF] at h
  | succ fuel ih =>
      intro buf off ri ri2 h
      simp only [raWalkF] at h
      by_cases h1 : off + 2 ≤ buf.length
      · rw [if_pos h1] at h
        by_cases h2 : byteAt buf (off + 1) * 8 = 0
        · rw [if_pos h2] at h
          simp at h
          subst h
          exact ⟨rfl, rfl, rfl, rfl⟩
        · rw [if_neg h2] at h
          by_cases h3 : buf.length < off + byteAt buf (off + 1) * 8
          · rw [if_pos h3] at h
            simp at h
            subst h
            exact ⟨rfl, rfl, rfl, rfl⟩
          · rw [if_neg h3] at h
            have hap := applyRAOption_fields buf off (byteAt buf (off + 1) * 8)
              (byteAt buf off) ri
            have hrec := ih buf (off + byteAt buf (off + 1) * 8) _ ri2 h
            exact ⟨hrec.1.trans hap.1, hrec.2.1.trans hap.2.1,
              hrec.2.2.1.trans hap.2.2.1, hrec.2.2.2.trans hap.2.2.2⟩
      · rw [if_neg h1] at h
        simp at h
        subst h
        exact ⟨rfl, rfl, rfl, rfl⟩

/-- C6: parseRA returns none exactly when the buffer is shorter than 16
    bytes; otherwise it returns a record whose hop limit is byte 4 with the
    control-metadata fallback (used only when byte 4 is zero and the metadata
    value nonzero), whose managed and other flags are bits 7 and 6 of byte 5,
    and whose lifetime is the big-endian 16-bit value at bytes 6-7 in
    seconds. -/
theorem parseRA_header (buf : List Nat) (sip mc ifn : String) (hl now : Int) :
    (parseRA buf sip mc hl ifn now = none ↔ buf.length < 16) ∧
    (16 ≤ buf.length →
      ∃ ri, parseRA buf sip mc hl ifn now = some ri ∧
        ri.hopLimit = (if byteAt buf 4 = 0 ∧ hl ≠ 0 then hl else (byteAt buf 4 : Int)) ∧
        ri.managed = (byteAt buf 5).testBit 7 ∧
        ri.other = (byteAt buf 5).testBit 6 ∧
        ri.lifetime = be16 buf 6) := by
  have hman : ((byteAt buf 5) &&& 128 != 0) = (byteAt buf 5).testBit 7 := by
    have := land_testBit (byteAt buf 5) 7
    norm_num at this
    exact this
  have hoth : ((byteAt buf 5) &&& 64 != 0) = (byteAt buf 5).testBit 6 := by
    have := land_testBit (byteAt buf 5) 6
    norm_num at this
    exact this
  constructor
  · by_cases hlen : buf.length < 16 <;> simp [parseRA, hlen]
  · intro hlen
    simp only [parseRA, if_neg (by omega : ¬ buf.length < 16)]
    refine ⟨_, rfl, ?_, ?_, ?_, ?_⟩ <;>
      cases hwalk : raWalkF (buf.length + 1) buf 16 (raHeader buf sip mc hl ifn now) with
    | none =>
        simp only [hwalk, Option.getD_none]
        first
          | exact raHeader_hopLimit buf sip mc ifn hl now
          | rw [(raHeader_fields buf sip mc ifn hl now).1, hman]
          | rw [(raHeader_fields buf sip mc ifn hl now).2.1, hoth]
          | exact (raHeader_fields buf sip mc ifn hl now).2.2
    | some r2 =>
        simp only [hwalk, Option.getD_some]
        have hf := raWalkF_fields _ _ _ _ _ hwalk
        first
          | exact hf.1.trans (raHeader_hopLimit buf sip mc ifn hl now)
          | rw [hf.2.1, (raHeader_fields buf sip mc ifn hl now).1, hman]
          | rw [hf.2.2.1, (raHeader_fields buf sip mc ifn hl now).2.1, hoth]
          | exact hf.2.2.2.trans (raHeader_fields buf sip mc ifn hl now).2.2

theorem parseRA_header_witness :
    ∃ ri, parseRA (134 :: List.replicate 15 0) "fe80::1" "" 0 "" 7 = some ri ∧
      ri.hopLimit = (0 : Int) ∧ ri.managed = false ∧ ri.other = false ∧
      ri.lifetime = 0 := by
  obtain ⟨ri, hri, hhop, hman, hoth, hlife⟩ :=
    (parseRA_header (134 :: List.replicate 15 0) "fe80::1" "" "" 0 7).2 (by decide)
  refine ⟨ri, hri, ?_, ?_, ?_, ?_⟩
  · rw [hhop]; decide
  · rw [hman]; decide
  · rw [hoth]; decide
  · rw [hlife]; decide

/-- The TLV option chain itself, as the spec describes it: each element is the
    option's declared type together with its full byte slice; traversal stops
    on a zero length, on an overrun, or when fewer than 2 bytes remain.
    (Fuel convention as in `llWalkF`; `tlvOptions` supplies enough.) -/
def tlvChainF : Nat → List Nat → Nat → List (Nat × List Nat)
  | 0, _, _ => []
  | fuel + 1, buf, offset =>
    if offset + 2 ≤ buf.length then
      let oType := byteAt buf offset
      let oLen := byteAt buf (offset + 1) * 8
      if oLen = 0 then []
      else if buf.length < offset + oLen then []
      else (oType, (buf.drop offset).take oLen) :: tlvChainF fuel buf (offset + oLen)
    else []

/-- The options reachable from `offset` in `buf`. -/
def tlvOptions (buf : List Nat) (offset : Nat) : List (Nat × List Nat) :=
  tlvChainF (buf.length + 1) buf offset

/-- Spec-side extraction: the first option in the chain whose type matches and
    whose length is at least 8 yields the 6 bytes at option offset 2..8 as a
    colon-separated hex MAC string; otherwise "none" (the empty string). -/
def llSpecFind (opts : List (Nat × List Nat)) (optionType : Nat) : String :=
  match opts with
  | [] => ""
  | (t, bytes) :: rest =>
      if t = optionType ∧ 8 ≤ bytes.length then macString ((bytes.drop 2).take 6)
      else llSpecFind rest optionType

/-- The link-layer walk finds exactly what the spec describes: the first
    matching option of the TLV chain, skipping unrelated options by their
    declared lengths. -/
theorem llWalkF_eq_spec : ∀ (fuel : Nat) (buf : List Nat) (w off : Nat),
    buf.length - off < fuel →
    llWalkF fuel buf w off = some (llSpecFind (tlvChainF fuel buf off) w) := by
  intro fuel
  induction fuel with
  | zero => intro buf w off h; omega
  | succ fuel ih =>
      intro buf w off h
      simp only [llWalkF, tlvChainF]
      by_cases h1 : off + 2 ≤ buf.length
      · rw [if_pos h1, if_pos h1]
        by_cases h2 : byteAt buf (off + 1) * 8 = 0
        · rw [if_pos h2, if_pos h2]
          simp [llSpecFind]
        · rw [if_neg h2, if_neg h2]
          by_cases h3 : buf.length < off + byteAt buf (off + 1) * 8
          · rw [if_pos h3, if_pos h3]
            simp [llSpecFind]
          · rw [if_neg h3, if_neg h3]
            have hlen : ((buf.drop off).take (byteAt buf (off + 1) * 8)).length =
                byteAt buf (off + 1) * 8 := by
              rw [List.length_take, List.length_drop]
              omega
            simp only [llSpecFind, hlen]
            by_cases h4 : byteAt buf off = w ∧ 8 ≤ byteAt buf (off + 1) * 8
            · rw [if_pos h4, if_pos h4]
              rw [List.drop_take, List.drop_drop, List.take_take,
                Nat.min_eq_left (by omega)]
            · rw [if_neg h4, if_neg h4]
              exact ih buf w (off + byteAt buf (off + 1) * 8) (by omega)
      · rw [if_neg h1, if_neg h1]
        simp [llSpecFind]

/-- C7: parseLinkLayerAddr returns, from the first option in the TLV chain
    whose type matches (with length at least 8), the 6 bytes at option offset
    2..8 as a colon-separated hex MAC string, skipping unrelated options by
    their declared lengths; it returns "" (none) when the message type has no
    options region, when the buffer is shorter than the options-start offset,
    or when no matching option exists.  The options-start table is RS=8,
    RA=16, NS/NA=24, Redirect=40, all other types unsupported. -/
theorem linkLayer_extraction (buf : List Nat) (w : Nat) :
    (ndpOptionsOffset 133 = some 8 ∧ ndpOptionsOffset 134 = some 16 ∧
     ndpOptionsOffset 135 = some 24 ∧ ndpOptionsOffset 136 = some 24 ∧
     ndpOptionsOffset 137 = some 40 ∧
     (∀ t, t < 256 → t ∉ ([133, 134, 135, 136, 137] : List Nat) →
       ndpOptionsOffset t = none)) ∧
    (ndpOptionsOffset (byteAt buf 0) = none → parseLinkLayerAddr buf w = "") ∧
    (∀ off, ndpOptionsOffset (byteAt buf 0) = some off → buf.length < off →
      parseLinkLayerAddr buf w = "") ∧
    (∀ off, ndpOptionsOffset (byteAt buf 0) = some off → off ≤ buf.length →
      parseLinkLayerAddr buf w = llSpecFind (tlvOptions buf off) w) := by
  refine ⟨⟨rfl, rfl, rfl, rfl, rfl,
    by set_option maxRecDepth 4096 in decide⟩, ?_, ?_, ?_⟩
  · intro hnone
    by_cases hlen : buf.length < 1
    · simp [parseLinkLayerAddr, hlen]
    · simp [parseLinkLayerAddr, hlen, hnone]
  · intro off hsome hlt
    by_cases hlen : buf.length < 1
    · simp [parseLinkLayerAddr, hlen]
    · simp [parseLinkLayerAddr, hlen, hsome, hlt]
  · intro off hsome hle
    have hlen : ¬ buf.length < 1 := by
      intro hcon
      have hb : buf = [] := List.length_eq_zero.mp (by omega)
      rw [hb] at hsome
      simp [byteAt, ndpOptionsOffset] at hsome
    simp only [parseLinkLayerAddr, if_neg hlen, hsome]
    by_cases hlt : buf.length < off
    · omega
    · rw [if_neg hlt]
      rw [llWalkF_eq_spec (buf.length + 1) buf w off (by omega)]
      rfl

theorem linkLayer_extraction_witness :
    parseLinkLayerAddr (135 :: List.replicate 23 0 ++ [1, 1, 170, 187, 204, 221, 238, 1]) 1 =
      "aa:bb:cc:dd:ee:01" ∧
    parseLinkLayerAddr (135 :: List.replicate 23 0 ++ [1, 1, 170, 187, 204, 221, 238, 1]) 2 =
      "" :=
  ⟨((linkLayer_extraction
      (135 :: List.replicate 23 0 ++ [1, 1, 170, 187, 204, 221, 238, 1]) 1).2.2.2 24
      (by decide) (by decide)).trans (by decide),
   ((linkLayer_extraction
      (135 :: List.replicate 23 0 ++ [1, 1, 170, 187, 204, 221, 238, 1]) 2).2.2.2 24
      (by decide) (by decide)).trans (by decide)⟩

theorem classify_total_witness : classifyICMPv6 128 = "" :=
  classify_total.2.2.2.2.2.2.2.2.2.2.2.2 128 (by decide) (by decide)
